import Mathlib

/-
Verification of the TTauri/hikogui dispatch-core specification against the
sources, centred on `src/TTauri/wfree_mpsc_message_queue.hpp` (the wait-free
MPSC ring buffer and its scoped operation objects), the timer awaitable
(`awaitable_timer::await_suspend`) and the subsystem start protocol.

Modelling conventions:
* `int64_t` head/tail counters are modelled as `Nat`: they start at 0 and are
  only ever incremented by `fetch_add(1)`; the source itself notes they are
  "extremely large integers, they will never wrap around", and the growth
  bound (at most one per operation) is proved below.  C++ `%` on non-negative
  `int64_t` agrees with `Nat.mod`.
* The `std::array<message_type, capacity>` of slots is modelled as the pair of
  functions `state : Nat -> message_state` and `value : Nat -> T`; every
  access in the source is at `index % capacity`, and so is every access in the
  model.
* Each atomic action of the source (a `fetch_add`, a slot-state `transition`
  completing, a plain `store`) is one step of a small-step relation; a
  spinning wait (`transition`, `wait_for_transition`, both declared in
  `atomic.hpp`, outside these sources) is modelled as the guard of the step:
  the step exists exactly when the wait would complete.  `Op.fill` models the
  producer storing the message value through `operator*` between
  `write_start` and `write_finish`.
* The fields `written` and `readLog` are ghost observation history (the value
  each completed write committed at its index, and the sequence of
  (index, value) pairs the consumer observed); they are read by no guard.
-/

namespace HikoVerify

namespace MPSC

/-- Per-slot state of a ring-buffer slot, from
`enum class message_state { Empty, Copying, Ready }` in
`wfree_mpsc_message_queue.hpp`. -/
inductive message_state where
  | Empty
  | Copying
  | Ready
deriving DecidableEq

/-- Shallow embedding of one `wfree_mpsc_message_queue<T, N>` instance.
`state`/`value` model the slot array (`messages[...].state` /
`messages[...].value`), `head`/`tail` the two atomic counters.  `writing` and
`reading` are the indices of in-flight operations (a `write_start` whose
`write_finish` has not yet run, resp. a `read_start` whose `read_finish` has
not yet run): they model the live scoped operation objects.  `written` and
`readLog` are ghost history, see the file header. -/
structure QState (T : Type) where
  state : Nat → message_state
  value : Nat → T
  head : Nat
  tail : Nat
  writing : List Nat
  reading : List Nat
  written : Nat → Option T
  readLog : List (Nat × T)

/-- The initial queue: `head = tail = 0`, every slot `Empty`
(`std::atomic<message_state> state = message_state::Empty`), values
default-constructed. -/
def initQ (T : Type) [Inhabited T] : QState T :=
  { state := fun _ => message_state.Empty
    value := fun _ => default
    head := 0
    tail := 0
    writing := []
    reading := []
    written := fun _ => none
    readLog := [] }

/-- The atomic actions of the queue protocol.  `write_start`/`read_start`
take no index (they reserve `head` resp. `tail` by fetch-add); `fill i v`
is the producer storing `v` through `operator*` into the slot of index `i`;
the finish actions carry the index handed back by the start action. -/
inductive Op (T : Type) where
  | write_start
  | fill (i : Nat) (v : T)
  | write_finish (i : Nat)
  | read_start
  | read_finish (j : Nat)

/-- Result of `write_start()`: `let index = head.fetch_add(1)` and the
completed `transition(message.state, Empty, Copying)` on
`messages[index % capacity]`.  The reserved index joins the in-flight set. -/
def wsNext (N : Nat) {T : Type} (q : QState T) : QState T :=
  { q with
    state := Function.update q.state (q.head % N) message_state.Copying
    head := q.head + 1
    writing := q.head :: q.writing }

/-- Result of the producer storing value `v` into the slot of its reserved
index `i` (dereference of the scoped write operation, `(*parent)[index]`). -/
def fillNext (N : Nat) (i : Nat) {T : Type} (v : T) (q : QState T) : QState T :=
  { q with value := Function.update q.value (i % N) v }

/-- Result of `write_finish(index)`:
`message.state.store(message_state::Ready)`.  The ghost log `written`
records the value the write committed at its index. -/
def wfNext (N : Nat) (i : Nat) {T : Type} (q : QState T) : QState T :=
  { q with
    state := Function.update q.state (i % N) message_state.Ready
    writing := q.writing.erase i
    written := Function.update q.written i (some (q.value (i % N))) }

/-- Result of `read_start()`: `let index = tail.fetch_add(1)` and the
completed `wait_for_transition(message.state, Ready)`.  The ghost `readLog`
records the (index, value) pair the consumer observes. -/
def rsNext (N : Nat) {T : Type} (q : QState T) : QState T :=
  { q with
    tail := q.tail + 1
    reading := q.tail :: q.reading
    readLog := q.readLog ++ [(q.tail, q.value (q.tail % N))] }

/-- Result of `read_finish(index)`:
`message.state.store(message_state::Empty)`; the message value itself is not
destructed (comment in the source: it is overwritten when the ring wraps). -/
def rfNext (N : Nat) (j : Nat) {T : Type} (q : QState T) : QState T :=
  { q with
    state := Function.update q.state (j % N) message_state.Empty
    reading := q.reading.erase j }

/-- One atomic action of the protocol.  The result is `none` when the action
cannot run now: for `write_start` (resp. `read_start`) that is the state in
which the spinning `transition` to `Copying` (resp. the wait for `Ready`)
does not complete, i.e. the call blocks; the guard `q.tail < q.head` on
`read_start` is the documented caller precondition "should only be called
when not empty()"; the guards on `fill`/finish actions say the index is one
handed out by a start whose finish has not yet run (the scoped-operation
protocol). -/
def applyOp (N : Nat) {T : Type} : Op T → QState T → Option (QState T)
  | Op.write_start, q =>
      if q.state (q.head % N) = message_state.Empty then some (wsNext N q) else none
  | Op.fill i v, q =>
      if i ∈ q.writing then some (fillNext N i v q) else none
  | Op.write_finish i, q =>
      if i ∈ q.writing then some (wfNext N i q) else none
  | Op.read_start, q =>
      if q.tail < q.head ∧ q.state (q.tail % N) = message_state.Ready
      then some (rsNext N q) else none
  | Op.read_finish j, q =>
      if j ∈ q.reading then some (rfNext N j q) else none

/-- Run a sequence of atomic actions; `none` as soon as one is blocked. -/
def run (N : Nat) {T : Type} : List (Op T) → QState T → Option (QState T)
  | [], q => some q
  | op :: ops, q =>
      match applyOp N op q with
      | some q1 => run N ops q1
      | none => none

/-- A queue state reachable from the initial queue by the protocol. -/
def Reachable (N : Nat) {T : Type} [Inhabited T] (q : QState T) : Prop :=
  ∃ ops : List (Op T), run N ops (initQ T) = some q

/-- `static constexpr index_type slack = 16` from the source. -/
def slack : Nat := 16

/-- `size()`: `head.load(relaxed) - tail.load(relaxed)` as `int64_t`. -/
def size {T : Type} (q : QState T) : Int :=
  (q.head : Int) - (q.tail : Int)

/-- `empty()`: `size() == 0`. -/
def empty {T : Type} (q : QState T) : Bool :=
  decide (size q = 0)

/-- `full()`: `size() >= (capacity - slack)`. -/
def full (N : Nat) {T : Type} (q : QState T) : Bool :=
  decide ((N : Int) - (slack : Int) ≤ size q)

/-- The source's `static_assert(capacity > (slack * 2), ...)`. -/
def capacity_static_assert (N : Nat) : Prop :=
  (slack : Int) * 2 < (N : Int)

/-- `operator[]`: `messages[index % capacity].value`. -/
def getIdx (N : Nat) {T : Type} (q : QState T) (i : Nat) : T :=
  q.value (i % N)

/-- A slot-state change respects the cycle Empty → Copying → Ready → Empty:
every slot whose state differs between `q` and `q'` moved along one edge of
that cycle. -/
def slotDiscipline {T : Type} (q q' : QState T) : Prop :=
  ∀ a : Nat, q'.state a ≠ q.state a →
    (q.state a = message_state.Empty ∧ q'.state a = message_state.Copying) ∨
    (q.state a = message_state.Copying ∧ q'.state a = message_state.Ready) ∨
    (q.state a = message_state.Ready ∧ q'.state a = message_state.Empty)

/-- Shallow embedding of `wfree_mpsc_message_queue_operation<T, N, W>`:
the nullable `parent` pointer (as an optional queue identity), the `int64_t`
`index`, and the `WriteOperation` template parameter. -/
structure queue_operation where
  parent : Option Nat
  index : Nat
  isWrite : Bool

/-- The default constructor: `parent(nullptr), index(0)`. -/
def default_op (w : Bool) : queue_operation :=
  { parent := none, index := 0, isWrite := w }

/-- The `(parent, index)` constructor used by `write()` / `read()`. -/
def mk_op (w : Bool) (p : Nat) (i : Nat) : queue_operation :=
  { parent := some p, index := i, isWrite := w }

/-- The move constructor: the new object copies `parent` and `index`, the
source's `parent` is set to `nullptr` (`other.parent = nullptr`).  First
component: the newly constructed object; second: the moved-from source. -/
def move_ctor (src : queue_operation) : queue_operation × queue_operation :=
  ({ parent := src.parent, index := src.index, isWrite := src.isWrite },
   { parent := none, index := src.index, isWrite := src.isWrite })

/-- The finish call performed by the destructor: `none` when
`parent == nullptr` (early return), otherwise the triple
(parent, WriteOperation, index) identifying the `write_finish(index)` or
`read_finish(index)` invoked on the parent. -/
def dtorEffect (op : queue_operation) : Option (Nat × Bool × Nat) :=
  op.parent.map (fun p => (p, op.isWrite, op.index))

/-- The objects produced by a chain of `k` move constructions starting from
`op`: the `k` moved-from husks followed by the final holder.  Destroying all
of them is the whole lifetime of the scoped operation. -/
def move_chain : Nat → queue_operation → List queue_operation
  | 0, op => [op]
  | k + 1, op => (move_ctor op).2 :: move_chain k (move_ctor op).1

/-- `operator*`: `required_assert(parent != nullptr); return (*parent)[index]`.
A failed `required_assert` is modelled as `none`; `q` is the queue the
non-null `parent` points to. -/
def star (N : Nat) {T : Type} (q : QState T) (op : queue_operation) : Option T :=
  match op.parent with
  | none => none
  | some _ => some (getIdx N q op.index)

/-- The action sequence of one producer completing the writes of the values
`vs` in order, its reservations starting at index `k` (each write is
`write_start`, the fill through `operator*`, `write_finish`). -/
def writeOps {T : Type} : Nat → List T → List (Op T)
  | _, [] => []
  | k, v :: vs => Op.write_start :: Op.fill k v :: Op.write_finish k :: writeOps (k + 1) vs

/-- The action sequence of the consumer completing `r` reads, its
reservations starting at index `j`. -/
def readOps (T : Type) : Nat → Nat → List (Op T)
  | _, 0 => []
  | j, r + 1 => Op.read_start :: Op.read_finish j :: readOps T (j + 1) r

/-- `k` completed writes of the values `vs` followed by `k` completed reads,
from the empty queue. -/
def seqOps {T : Type} (vs : List T) : List (Op T) :=
  writeOps 0 vs ++ readOps T 0 vs.length

/-- An execution on a queue of capacity 33 (the smallest capacity passing the
static assert) that respects the advisory protocol — every write happens
while `full()` was false just before its reservation — and ends exactly at
the full threshold `head - tail = capacity - slack` with the consumer still
holding the scoped read operation of index 0: 17 completed writes, the
consumer's `read_start` of index 0 with no matching `read_finish` yet,
15 completed reads (indices 1..15), then 16 more completed writes
(indices 17..32). -/
def cexOps : List (Op Nat) :=
  writeOps 0 (List.range 17) ++ [Op.read_start] ++ readOps Nat 1 15 ++
    writeOps 17 (List.range 16)

/-- The state reached by `cexOps` (total function version of the run). -/
def cexQ : QState Nat :=
  (run 33 cexOps (initQ Nat)).getD (initQ Nat)

/-- The inductive invariant of the queue protocol, holding in every reachable
state: the counters are ordered and within one ring of each other; in-flight
indices are registered below (writes) resp. at or above (reads) the window
`[tail, head)`; the slot of a reserved-but-unread index is `Copying` while
its write is in flight and `Ready` after; the slot of an in-flight read is
`Ready`; every slot not claimed by either is `Empty`; a completed unread
index holds its committed value; and the consumer's observation log pairs
the indices `0..tail-1`, in order, each with the value committed at it. -/
structure Inv (N : Nat) {T : Type} (q : QState T) : Prop where
  tail_le_head : q.tail ≤ q.head
  window : q.head ≤ q.tail + N
  writing_nodup : q.writing.Nodup
  reading_nodup : q.reading.Nodup
  writing_mem : ∀ i ∈ q.writing, q.tail ≤ i ∧ i < q.head
  reading_mem : ∀ j ∈ q.reading, j < q.tail ∧ q.head ≤ j + N
  reserved_state : ∀ i, q.tail ≤ i → i < q.head →
    q.state (i % N) = if i ∈ q.writing then message_state.Copying else message_state.Ready
  reading_state : ∀ j ∈ q.reading, q.state (j % N) = message_state.Ready
  free_state : ∀ a : Nat, (∀ i, q.tail ≤ i → i < q.head → i % N ≠ a) →
    (∀ j ∈ q.reading, j % N ≠ a) → q.state a = message_state.Empty
  written_committed : ∀ i, q.tail ≤ i → i < q.head → i ∉ q.writing →
    q.written i = some (q.value (i % N))
  readLog_indices : q.readLog.map Prod.fst = List.range q.tail
  readLog_written : ∀ p ∈ q.readLog, q.written p.1 = some p.2

end MPSC

namespace Dispatch

/-- A callback held by the loop's timer queue: either the lambda
`[handle]{ handle.resume(); }` registered by `awaitable_timer::await_suspend`
(identified by the coroutine handle it resumes) or any other callable. -/
inductive Callback where
  | resume (handle : Nat)
  | plain (id : Nat)
deriving DecidableEq

/-- A delayed function registered with the loop: its deadline
(`utc_nanoseconds`, modelled as `Int`) and its callback. -/
structure Timer where
  deadline : Int
  callback : Callback
deriving DecidableEq

/-- Modelled from the spec: the thread-local `loop` of §4.1, whose
implementation is not among these sources.  It owns a timer queue and is
owned by one thread; callbacks fire only on that thread.  Tokens are handed
out from a counter. -/
structure Loop where
  owner : Nat
  timers : List (Nat × Timer)
  nextToken : Nat
deriving DecidableEq

/-- Modelled from the spec: `loop::delay_function(deadline, cb) -> token`
("`schedule_timer(deadline, repeat?, cb) -> token` — callback fires on the
owning thread no earlier than deadline; ties broken FIFO by registration
order; never fails structurally").  The loop implementation is not among
these sources; registration appends the timer and returns a fresh token. -/
def delay_function (lp : Loop) (deadline : Int) (cb : Callback) : Nat × Loop :=
  (lp.nextToken,
   { lp with
     timers := lp.timers ++ [(lp.nextToken, { deadline := deadline, callback := cb })]
     nextToken := lp.nextToken + 1 })

/-- The awaitable's fields `_deadline` and `_token` from
`awaitable_timer_intf.hpp` (the token is empty until suspension). -/
structure awaitable_timer where
  deadline : Int
  token : Option Nat

/-- `awaitable_timer::await_suspend(handle)` from the source:
`_token = loop::local().delay_function(_deadline, [handle]{ handle.resume(); })`.
Returns the updated awaitable and the updated thread-local loop. -/
def await_suspend (a : awaitable_timer) (handle : Nat) (lp : Loop) :
    awaitable_timer × Loop :=
  ({ a with token := some (delay_function lp a.deadline (Callback.resume handle)).1 },
   (delay_function lp a.deadline (Callback.resume handle)).2)

/-- Modelled from the spec: the loop may fire the delayed function of token
`tok` at `time` on thread `thread` only if `thread` owns the loop and the
token's registered deadline has passed ("callback fires on the owning thread
no earlier than deadline"). -/
def canFire (lp : Loop) (tok : Nat) (time : Int) (thread : Nat) : Prop :=
  thread = lp.owner ∧ ∃ t ∈ lp.timers, t.1 = tok ∧ t.2.deadline ≤ time

/-- A loop hands out fresh tokens: no registered timer already holds the
token the counter will hand out next.  Holds for every loop built from the
empty loop by `delay_function`. -/
def FreshTokens (lp : Loop) : Prop :=
  ∀ t ∈ lp.timers, t.1 < lp.nextToken

end Dispatch

namespace SubSys

/-- Modelled from the spec: the process-wide subsystem state
"{NotStarted, Starting, Running, Stopping, Stopped}" (§3); the
`hi::start_subsystem` implementation called by
`os_settings::start_subsystem` is not among these sources. -/
inductive SubsystemState where
  | NotStarted
  | Starting
  | Running
  | Stopping
  | Stopped
deriving DecidableEq

/-- Where one thread's call to `start` currently stands: not yet at the CAS
(`idle`), winner of the CAS NotStarted→Starting (`won`), loser waiting for
Running (`waiting`), or returned with a result (`done ok`). -/
inductive CallState where
  | idle
  | won
  | waiting
  | done (ok : Bool)
deriving DecidableEq

/-- A configuration of `n` threads racing one subsystem `start`. -/
structure Conf (n : Nat) where
  state : SubsystemState
  initCount : Nat
  calls : Fin n → CallState

/-- All threads about to call `start` on a never-started subsystem. -/
def initConf (n : Nat) : Conf n :=
  { state := SubsystemState.NotStarted, initCount := 0, calls := fun _ => CallState.idle }

/-- Modelled from the spec (§4.7): one atomic step of
`start(flag, init_fn, deinit_fn)` — "CAS NotStarted→Starting; losing threads
wait for Running; the winner runs `init_fn` and sets Running on success, or
reverts to NotStarted and returns failure.  Idempotent once Running."
`initOk` is whether `init_fn` succeeds; `initCount` counts its executions. -/
inductive sstep (n : Nat) (initOk : Bool) : Conf n → Conf n → Prop
  | cas_win (c : Conf n) (t : Fin n)
      (hc : c.calls t = CallState.idle) (hs : c.state = SubsystemState.NotStarted) :
      sstep n initOk c
        { state := SubsystemState.Starting
          initCount := c.initCount
          calls := Function.update c.calls t CallState.won }
  | cas_lose (c : Conf n) (t : Fin n)
      (hc : c.calls t = CallState.idle) (hs : c.state ≠ SubsystemState.NotStarted) :
      sstep n initOk c
        { c with calls := Function.update c.calls t CallState.waiting }
  | observe_running (c : Conf n) (t : Fin n)
      (hc : c.calls t = CallState.waiting) (hs : c.state = SubsystemState.Running) :
      sstep n initOk c
        { c with calls := Function.update c.calls t (CallState.done true) }
  | retry (c : Conf n) (t : Fin n)
      (hc : c.calls t = CallState.waiting) (hs : c.state = SubsystemState.NotStarted) :
      sstep n initOk c
        { c with calls := Function.update c.calls t CallState.idle }
  | run_init (c : Conf n) (t : Fin n)
      (hc : c.calls t = CallState.won) :
      sstep n initOk c
        { state := if initOk then SubsystemState.Running else SubsystemState.NotStarted
          initCount := c.initCount + 1
          calls := Function.update c.calls t (CallState.done initOk) }

/-- Configurations reachable from `n` fresh threads racing `start`. -/
def ReachableS (n : Nat) (initOk : Bool) (c : Conf n) : Prop :=
  Relation.ReflTransGen (sstep n initOk) (initConf n) c

/-- The configuration after the winner `t` runs a failing `init_fn`:
the state reverts to NotStarted, `t` returns false. -/
def failConf (n : Nat) (c : Conf n) (t : Fin n) : Conf n :=
  { state := SubsystemState.NotStarted
    initCount := c.initCount + 1
    calls := Function.update c.calls t (CallState.done false) }

/-- A one-thread configuration whose thread has just won the CAS. -/
def wonConf : Conf 1 :=
  { state := SubsystemState.Starting, initCount := 0, calls := fun _ => CallState.won }

/-- The invariant of the race with a succeeding `init_fn`: before any CAS win
the subsystem is untouched; between the CAS win and `init_fn` finishing there
is exactly one winner and nobody has returned; once Running, `init_fn` ran
exactly once, no winner remains, and nobody has returned failure. -/
def InvS (n : Nat) (c : Conf n) : Prop :=
  (c.state = SubsystemState.NotStarted ∧ c.initCount = 0 ∧
    ∀ t, c.calls t = CallState.idle) ∨
  (c.state = SubsystemState.Starting ∧ c.initCount = 0 ∧
    (∃ w, c.calls w = CallState.won ∧ ∀ t, c.calls t = CallState.won → t = w) ∧
    ∀ t ok, c.calls t ≠ CallState.done ok) ∨
  (c.state = SubsystemState.Running ∧ c.initCount = 1 ∧
    (∀ t, c.calls t ≠ CallState.won) ∧ ∀ t, c.calls t ≠ CallState.done false)

end SubSys

end HikoVerify

namespace HikoVerify

namespace MPSC

theorem mod_ne_of_between {N i j : Nat} (h1 : i < j) (h2 : j < i + N) :
    i % N ≠ j % N := by
  intro h
  have hd : N ∣ j - i := (Nat.modEq_iff_dvd' (Nat.le_of_lt h1)).mp h
  have : N ≤ j - i := Nat.le_of_dvd (by omega) hd
  omega

theorem mod_ne_window {N lo hi i j : Nat} (hi1 : lo ≤ i) (hi2 : i < hi)
    (hj1 : lo ≤ j) (hj2 : j < hi) (hw : hi ≤ lo + N) (hne : i ≠ j) :
    i % N ≠ j % N := by
  rcases Nat.lt_or_ge i j with h | h
  · exact mod_ne_of_between h (by omega)
  · have h' : j < i := by omega
    exact fun hh => (mod_ne_of_between h' (by omega)) hh.symm

theorem reading_reserved_ne {N t h i j : Nat} (h1 : j < t) (h2 : h ≤ j + N)
    (h3 : t ≤ i) (h4 : i < h) : i % N ≠ j % N := by
  have h' : j < i := by omega
  exact fun hh => (mod_ne_of_between h' (by omega)) hh.symm

theorem reading_reading_ne {N t h j j' : Nat} (hj1 : j < t) (hj2 : h ≤ j + N)
    (hk1 : j' < t) (hk2 : h ≤ j' + N) (hth : t ≤ h) (hne : j ≠ j') :
    j % N ≠ j' % N := by
  rcases Nat.lt_or_ge j j' with h' | h'
  · exact mod_ne_of_between h' (by omega)
  · have h'' : j' < j := by omega
    exact fun hh => (mod_ne_of_between h'' (by omega)) hh.symm

theorem applyOp_write_start {N : Nat} {T : Type} {q q' : QState T}
    (h : applyOp N Op.write_start q = some q') :
    q.state (q.head % N) = message_state.Empty ∧ q' = wsNext N q := by
  by_cases hE : q.state (q.head % N) = message_state.Empty
  · refine ⟨hE, ?_⟩
    simp only [applyOp, if_pos hE, Option.some.injEq] at h
    exact h.symm
  · simp only [applyOp, if_neg hE] at h
    cases h

theorem applyOp_fill {N : Nat} {T : Type} {q q' : QState T} {i : Nat} {v : T}
    (h : applyOp N (Op.fill i v) q = some q') :
    i ∈ q.writing ∧ q' = fillNext N i v q := by
  by_cases hi : i ∈ q.writing
  · refine ⟨hi, ?_⟩
    simp only [applyOp, if_pos hi, Option.some.injEq] at h
    exact h.symm
  · simp only [applyOp, if_neg hi] at h
    cases h

theorem applyOp_write_finish {N : Nat} {T : Type} {q q' : QState T} {i : Nat}
    (h : applyOp N (Op.write_finish i) q = some q') :
    i ∈ q.writing ∧ q' = wfNext N i q := by
  by_cases hi : i ∈ q.writing
  · refine ⟨hi, ?_⟩
    simp only [applyOp, if_pos hi, Option.some.injEq] at h
    exact h.symm
  · simp only [applyOp, if_neg hi] at h
    cases h

theorem applyOp_read_start {N : Nat} {T : Type} {q q' : QState T}
    (h : applyOp N Op.read_start q = some q') :
    q.tail < q.head ∧ q.state (q.tail % N) = message_state.Ready ∧ q' = rsNext N q := by
  by_cases hg : q.tail < q.head ∧ q.state (q.tail % N) = message_state.Ready
  · refine ⟨hg.1, hg.2, ?_⟩
    simp only [applyOp, if_pos hg, Option.some.injEq] at h
    exact h.symm
  · simp only [applyOp, if_neg hg] at h
    cases h

theorem applyOp_read_finish {N : Nat} {T : Type} {q q' : QState T} {j : Nat}
    (h : applyOp N (Op.read_finish j) q = some q') :
    j ∈ q.reading ∧ q' = rfNext N j q := by
  by_cases hj : j ∈ q.reading
  · refine ⟨hj, ?_⟩
    simp only [applyOp, if_pos hj, Option.some.injEq] at h
    exact h.symm
  · simp only [applyOp, if_neg hj] at h
    cases h

theorem head_fresh {N : Nat} {T : Type} {q : QState T} (hN : 0 < N) (hI : Inv N q)
    (hE : q.state (q.head % N) = message_state.Empty) :
    (∀ i, q.tail ≤ i → i < q.head → i % N ≠ q.head % N) ∧
    (∀ j ∈ q.reading, j % N ≠ q.head % N) ∧ q.head < q.tail + N := by
  have hres : ∀ i, q.tail ≤ i → i < q.head → i % N ≠ q.head % N := by
    intro i h1 h2 hmod
    have hst := hI.reserved_state i h1 h2
    rw [hmod, hE] at hst
    split at hst <;> simp_all
  have hrd : ∀ j ∈ q.reading, j % N ≠ q.head % N := by
    intro j hj hmod
    have hst := hI.reading_state j hj
    rw [hmod, hE] at hst
    simp at hst
  refine ⟨hres, hrd, ?_⟩
  rcases Nat.lt_or_ge q.head (q.tail + N) with h | h
  · exact h
  · exfalso
    have heq : q.head = q.tail + N := by have := hI.window; omega
    have htl : q.tail < q.head := by omega
    exact hres q.tail le_rfl htl (by rw [heq, Nat.add_mod_right])

theorem inv_ws {N : Nat} {T : Type} {q : QState T} (hN : 0 < N) (hI : Inv N q)
    (hE : q.state (q.head % N) = message_state.Empty) : Inv N (wsNext N q) := by
  obtain ⟨hres, hrd, hstrict⟩ := head_fresh hN hI hE
  refine ⟨?_, ?_, ?_, ?_, ?_, ?_, ?_, ?_, ?_, ?_, ?_, ?_⟩ <;> simp only [wsNext]
  · have := hI.tail_le_head; omega
  · omega
  · exact List.nodup_cons.mpr
      ⟨fun hm => absurd (hI.writing_mem _ hm).2 (lt_irrefl _), hI.writing_nodup⟩
  · exact hI.reading_nodup
  · intro i hi
    rcases List.mem_cons.mp hi with he | hm
    · subst he; exact ⟨hI.tail_le_head, by omega⟩
    · have := hI.writing_mem i hm; exact ⟨this.1, by omega⟩
  · intro j hj
    have hm := hI.reading_mem j hj
    refine ⟨hm.1, ?_⟩
    rcases Nat.lt_or_ge q.head (j + N) with h | h
    · omega
    · exfalso
      have heq : q.head = j + N := by omega
      exact hrd j hj (by rw [heq, Nat.add_mod_right])
  · intro i h1 h2
    by_cases he : i = q.head
    · subst he
      rw [Function.update_same, if_pos (List.mem_cons_self _ _)]
    · have h2' : i < q.head := by omega
      have hmodne : i % N ≠ q.head % N := hres i h1 h2'
      rw [Function.update_noteq hmodne]
      have hiff : i ∈ q.head :: q.writing ↔ i ∈ q.writing := by
        simp [List.mem_cons, he]
      by_cases hw : i ∈ q.writing
      · rw [if_pos (hiff.mpr hw)]
        have := hI.reserved_state i h1 h2'
        rwa [if_pos hw] at this
      · rw [if_neg (fun hmem => hw (hiff.mp hmem))]
        have := hI.reserved_state i h1 h2'
        rwa [if_neg hw] at this
  · intro j hj
    rw [Function.update_noteq (hrd j hj)]
    exact hI.reading_state j hj
  · intro a h1 h2
    by_cases ha : a = q.head % N
    · exact absurd ha.symm (h1 q.head hI.tail_le_head (Nat.lt_succ_self _))
    · rw [Function.update_noteq ha]
      exact hI.free_state a (fun i hi1 hi2 => h1 i hi1 (by omega)) h2
  · intro i h1 h2 hni
    have hne : i ≠ q.head := fun he => hni (he ▸ List.mem_cons_self _ _)
    have h2' : i < q.head := by omega
    have hni' : i ∉ q.writing := fun hm => hni (List.mem_cons_of_mem _ hm)
    exact hI.written_committed i h1 h2' hni'
  · exact hI.readLog_indices
  · exact hI.readLog_written

theorem inv_fill {N : Nat} {T : Type} {q : QState T} {i : Nat} {v : T}
    (hI : Inv N q) (hi : i ∈ q.writing) : Inv N (fillNext N i v q) := by
  have hmi := hI.writing_mem i hi
  refine ⟨?_, ?_, ?_, ?_, ?_, ?_, ?_, ?_, ?_, ?_, ?_, ?_⟩ <;> simp only [fillNext]
  · exact hI.tail_le_head
  · exact hI.window
  · exact hI.writing_nodup
  · exact hI.reading_nodup
  · exact hI.writing_mem
  · exact hI.reading_mem
  · exact hI.reserved_state
  · exact hI.reading_state
  · exact hI.free_state
  · intro i' h1 h2 hni
    have hne : i' ≠ i := fun he => hni (he ▸ hi)
    have hmodne : i' % N ≠ i % N := mod_ne_window h1 h2 hmi.1 hmi.2 hI.window hne
    rw [Function.update_noteq hmodne]
    exact hI.written_committed i' h1 h2 hni
  · exact hI.readLog_indices
  · exact hI.readLog_written

theorem inv_wf {N : Nat} {T : Type} {q : QState T} {i : Nat}
    (hI : Inv N q) (hi : i ∈ q.writing) : Inv N (wfNext N i q) := by
  have hmi := hI.writing_mem i hi
  refine ⟨?_, ?_, ?_, ?_, ?_, ?_, ?_, ?_, ?_, ?_, ?_, ?_⟩ <;> simp only [wfNext]
  · exact hI.tail_le_head
  · exact hI.window
  · exact hI.writing_nodup.erase i
  · exact hI.reading_nodup
  · intro i' hi'
    exact hI.writing_mem i' (List.mem_of_mem_erase hi')
  · exact hI.reading_mem
  · intro i' h1 h2
    by_cases he : i' = i
    · subst he
      rw [Function.update_same, if_neg (hI.writing_nodup.not_mem_erase)]
    · have hmodne : i' % N ≠ i % N := mod_ne_window h1 h2 hmi.1 hmi.2 hI.window he
      rw [Function.update_noteq hmodne]
      have hiff : i' ∈ q.writing.erase i ↔ i' ∈ q.writing := by
        rw [hI.writing_nodup.mem_erase_iff]
        simp [he]
      by_cases hw : i' ∈ q.writing
      · rw [if_pos (hiff.mpr hw)]
        have := hI.reserved_state i' h1 h2
        rwa [if_pos hw] at this
      · rw [if_neg (fun hmem => hw (hiff.mp hmem))]
        have := hI.reserved_state i' h1 h2
        rwa [if_neg hw] at this
  · intro j hj
    have hmj := hI.reading_mem j hj
    have hmodne : i % N ≠ j % N := reading_reserved_ne hmj.1 hmj.2 hmi.1 hmi.2
    rw [Function.update_noteq hmodne.symm]
    exact hI.reading_state j hj
  · intro a h1 h2
    by_cases ha : a = i % N
    · exact absurd ha.symm (h1 i hmi.1 hmi.2)
    · rw [Function.update_noteq ha]
      exact hI.free_state a h1 h2
  · intro i' h1 h2 hni
    by_cases he : i' = i
    · subst he
      rw [Function.update_same]
    · have hni' : i' ∉ q.writing := by
        intro hw
        exact hni ((hI.writing_nodup.mem_erase_iff).mpr ⟨he, hw⟩)
      rw [Function.update_noteq he]
      exact hI.written_committed i' h1 h2 hni'
  · exact hI.readLog_indices
  · intro p hp
    have hplt : p.1 < q.tail := by
      have hmem : p.1 ∈ q.readLog.map Prod.fst := List.mem_map_of_mem _ hp
      rw [hI.readLog_indices] at hmem
      exact List.mem_range.mp hmem
    have hne : p.1 ≠ i := by have := hmi.1; omega
    rw [Function.update_noteq hne]
    exact hI.readLog_written p hp

theorem inv_rs {N : Nat} {T : Type} {q : QState T}
    (hI : Inv N q) (hlt : q.tail < q.head)
    (hR : q.state (q.tail % N) = message_state.Ready) : Inv N (rsNext N q) := by
  have htw : q.tail ∉ q.writing := by
    intro hw
    have hst := hI.reserved_state q.tail le_rfl hlt
    rw [if_pos hw] at hst
    rw [hst] at hR
    simp at hR
  refine ⟨?_, ?_, ?_, ?_, ?_, ?_, ?_, ?_, ?_, ?_, ?_, ?_⟩ <;> simp only [rsNext]
  · omega
  · have := hI.window; omega
  · exact hI.writing_nodup
  · exact List.nodup_cons.mpr
      ⟨fun hm => absurd (hI.reading_mem _ hm).1 (lt_irrefl _), hI.reading_nodup⟩
  · intro i hi
    have := hI.writing_mem i hi
    have hne : i ≠ q.tail := fun he => htw (he ▸ hi)
    exact ⟨by omega, this.2⟩
  · intro j hj
    rcases List.mem_cons.mp hj with he | hm
    · subst he
      exact ⟨by omega, by have := hI.window; omega⟩
    · have := hI.reading_mem j hm
      exact ⟨by omega, this.2⟩
  · intro i h1 h2
    exact hI.reserved_state i (by omega) h2
  · intro j hj
    rcases List.mem_cons.mp hj with he | hm
    · subst he; exact hR
    · exact hI.reading_state j hm
  · intro a h1 h2
    apply hI.free_state a
    · intro i hi1 hi2
      by_cases he : i = q.tail
      · subst he
        exact h2 q.tail (List.mem_cons_self _ _)
      · exact h1 i (by omega) hi2
    · intro j hj
      exact h2 j (List.mem_cons_of_mem _ hj)
  · intro i h1 h2 hni
    exact hI.written_committed i (by omega) h2 hni
  · simp [List.map_append, hI.readLog_indices, List.range_succ]
  · intro p hp
    rcases List.mem_append.mp hp with hm | hm
    · exact hI.readLog_written p hm
    · rw [List.mem_singleton] at hm
      subst hm
      exact hI.written_committed q.tail le_rfl hlt htw

theorem inv_rf {N : Nat} {T : Type} {q : QState T} {j : Nat}
    (hI : Inv N q) (hj : j ∈ q.reading) : Inv N (rfNext N j q) := by
  have hmj := hI.reading_mem j hj
  refine ⟨?_, ?_, ?_, ?_, ?_, ?_, ?_, ?_, ?_, ?_, ?_, ?_⟩ <;> simp only [rfNext]
  · exact hI.tail_le_head
  · exact hI.window
  · exact hI.writing_nodup
  · exact hI.reading_nodup.erase j
  · exact hI.writing_mem
  · intro j' hj'
    exact hI.reading_mem j' (List.mem_of_mem_erase hj')
  · intro i h1 h2
    have hmodne : i % N ≠ j % N := reading_reserved_ne hmj.1 hmj.2 h1 h2
    rw [Function.update_noteq hmodne]
    exact hI.reserved_state i h1 h2
  · intro j' hj'
    have hj'' := List.mem_of_mem_erase hj'
    have hne : j' ≠ j := (hI.reading_nodup.mem_erase_iff.mp hj').1
    have hmj' := hI.reading_mem j' hj''
    have hmodne : j' % N ≠ j % N :=
      reading_reading_ne hmj'.1 hmj'.2 hmj.1 hmj.2 hI.tail_le_head hne
    rw [Function.update_noteq hmodne]
    exact hI.reading_state j' hj''
  · intro a h1 h2
    by_cases ha : a = j % N
    · rw [ha, Function.update_same]
    · rw [Function.update_noteq ha]
      apply hI.free_state a h1
      intro j' hj'
      by_cases he : j' = j
      · subst he
        exact fun hh => ha hh.symm
      · exact h2 j' ((hI.reading_nodup.mem_erase_iff).mpr ⟨he, hj'⟩)
  · exact hI.written_committed
  · exact hI.readLog_indices
  · exact hI.readLog_written

theorem inv_apply {N : Nat} {T : Type} (hN : 0 < N) {q q' : QState T} {op : Op T}
    (h : applyOp N op q = some q') (hI : Inv N q) : Inv N q' := by
  cases op with
  | write_start =>
      obtain ⟨hE, rfl⟩ := applyOp_write_start h
      exact inv_ws hN hI hE
  | fill i v =>
      obtain ⟨hi, rfl⟩ := applyOp_fill h
      exact inv_fill hI hi
  | write_finish i =>
      obtain ⟨hi, rfl⟩ := applyOp_write_finish h
      exact inv_wf hI hi
  | read_start =>
      obtain ⟨hlt, hR, rfl⟩ := applyOp_read_start h
      exact inv_rs hI hlt hR
  | read_finish j =>
      obtain ⟨hj, rfl⟩ := applyOp_read_finish h
      exact inv_rf hI hj

theorem run_inv {N : Nat} {T : Type} (hN : 0 < N) :
    ∀ (ops : List (Op T)) (q0 q : QState T),
      Inv N q0 → run N ops q0 = some q → Inv N q := by
  intro ops
  induction ops with
  | nil =>
      intro q0 q h0 h
      simp only [run] at h
      cases h
      exact h0
  | cons op ops ih =>
      intro q0 q h0 h
      simp only [run] at h
      cases heq : applyOp N op q0 with
      | none => rw [heq] at h; cases h
      | some q1 =>
          rw [heq] at h
          exact ih q1 q (inv_apply hN heq h0) h

theorem init_inv (N : Nat) (T : Type) [Inhabited T] : Inv N (initQ T) := by
  refine ⟨?_, ?_, ?_, ?_, ?_, ?_, ?_, ?_, ?_, ?_, ?_, ?_⟩ <;> simp [initQ]

theorem reachable_inv {N : Nat} {T : Type} [Inhabited T] (hN : 0 < N)
    {q : QState T} (hr : Reachable N q) : Inv N q := by
  obtain ⟨ops, h⟩ := hr
  exact run_inv hN ops (initQ T) q (init_inv N T) h

theorem apply_counter_bound {N : Nat} {T : Type} {q q' : QState T} {op : Op T}
    (h : applyOp N op q = some q') :
    q.head ≤ q'.head ∧ q.tail ≤ q'.tail ∧ q'.head ≤ q.head + 1 ∧ q'.tail ≤ q.tail + 1 := by
  cases op with
  | write_start =>
      obtain ⟨_, rfl⟩ := applyOp_write_start h
      simp only [wsNext]
      omega
  | fill i v =>
      obtain ⟨_, rfl⟩ := applyOp_fill h
      simp only [fillNext]
      omega
  | write_finish i =>
      obtain ⟨_, rfl⟩ := applyOp_write_finish h
      simp only [wfNext]
      omega
  | read_start =>
      obtain ⟨_, _, rfl⟩ := applyOp_read_start h
      simp only [rsNext]
      omega
  | read_finish j =>
      obtain ⟨_, rfl⟩ := applyOp_read_finish h
      simp only [rfNext]
      omega

theorem run_counter_bound {N : Nat} {T : Type} :
    ∀ (ops : List (Op T)) (q0 q : QState T), run N ops q0 = some q →
      q.head ≤ q0.head + ops.length ∧ q.tail ≤ q0.tail + ops.length := by
  intro ops
  induction ops with
  | nil =>
      intro q0 q h
      simp only [run] at h
      cases h
      simp
  | cons op ops ih =>
      intro q0 q h
      simp only [run] at h
      cases heq : applyOp N op q0 with
      | none => rw [heq] at h; cases h
      | some q1 =>
          rw [heq] at h
          have h1 := apply_counter_bound heq
          have h2 := ih q1 q h
          simp only [List.length_cons]
          omega

/-- C1: every slot of the MPSC ring buffer cycles only through
Empty → Copying → Ready → Empty.  In every reachable queue state, every
protocol action either leaves every slot state unchanged or moves exactly
one slot along one edge of that cycle (`slotDiscipline`); specifically,
`write_start` moves its reserved slot (the `head` fetch-add result modulo
capacity) from `Empty` to `Copying`, `write_finish i` finds the slot of `i`
in `Copying` and stores `Ready`, `read_start` completes only with its
reserved slot (`tail` fetch-add result modulo capacity) `Ready` and changes
no slot state, `read_finish j` finds the slot of `j` in `Ready` and stores
`Empty`, and `fill` changes no slot state. -/
theorem mpsc_slot_state_cycle {T : Type} [Inhabited T] (N : Nat) (hN : 32 < N)
    (q : QState T) (hr : Reachable N q) (op : Op T) (q' : QState T)
    (h : applyOp N op q = some q') :
    slotDiscipline q q' ∧
    (op = Op.write_start → q.state (q.head % N) = message_state.Empty ∧
      q'.state (q.head % N) = message_state.Copying) ∧
    (∀ i, op = Op.write_finish i → q.state (i % N) = message_state.Copying ∧
      q'.state (i % N) = message_state.Ready) ∧
    (op = Op.read_start → q.state (q.tail % N) = message_state.Ready ∧
      q'.state = q.state) ∧
    (∀ j, op = Op.read_finish j → q.state (j % N) = message_state.Ready ∧
      q'.state (j % N) = message_state.Empty) ∧
    (∀ i v, op = Op.fill i v → q'.state = q.state) := by
  have hI := reachable_inv (N := N) (by omega) hr
  cases op with
  | write_start =>
      obtain ⟨hE, rfl⟩ := applyOp_write_start h
      refine ⟨?_, ?_, ?_, ?_, ?_, ?_⟩
      · intro a hne
        by_cases ha : a = q.head % N
        · subst ha
          exact Or.inl ⟨hE, by simp [wsNext, Function.update_same]⟩
        · exact absurd (by simp [wsNext, Function.update_noteq ha]) hne
      · intro _
        exact ⟨hE, by simp [wsNext, Function.update_same]⟩
      · intro i he; exact Op.noConfusion he
      · intro he; exact Op.noConfusion he
      · intro j he; exact Op.noConfusion he
      · intro i v he; exact Op.noConfusion he
  | fill i v =>
      obtain ⟨hi, rfl⟩ := applyOp_fill h
      refine ⟨?_, ?_, ?_, ?_, ?_, ?_⟩
      · intro a hne
        exact absurd rfl hne
      · intro he; exact Op.noConfusion he
      · intro i' he; exact Op.noConfusion he
      · intro he; exact Op.noConfusion he
      · intro j he; exact Op.noConfusion he
      · intro i' v' _; rfl
  | write_finish i =>
      obtain ⟨hi, rfl⟩ := applyOp_write_finish h
      have hmi := hI.writing_mem i hi
      have hco : q.state (i % N) = message_state.Copying := by
        have := hI.reserved_state i hmi.1 hmi.2
        rwa [if_pos hi] at this
      refine ⟨?_, ?_, ?_, ?_, ?_, ?_⟩
      · intro a hne
        by_cases ha : a = i % N
        · subst ha
          exact Or.inr (Or.inl ⟨hco, by simp [wfNext, Function.update_same]⟩)
        · exact absurd (by simp [wfNext, Function.update_noteq ha]) hne
      · intro he; exact Op.noConfusion he
      · intro i' he
        cases he
        exact ⟨hco, by simp [wfNext, Function.update_same]⟩
      · intro he; exact Op.noConfusion he
      · intro j he; exact Op.noConfusion he
      · intro i' v' he; exact Op.noConfusion he
  | read_start =>
      obtain ⟨hlt, hR, rfl⟩ := applyOp_read_start h
      refine ⟨?_, ?_, ?_, ?_, ?_, ?_⟩
      · intro a hne
        exact absurd rfl hne
      · intro he; exact Op.noConfusion he
      · intro i he; exact Op.noConfusion he
      · intro _; exact ⟨hR, rfl⟩
      · intro j he; exact Op.noConfusion he
      · intro i v he; exact Op.noConfusion he
  | read_finish j =>
      obtain ⟨hj, rfl⟩ := applyOp_read_finish h
      have hrd : q.state (j % N) = message_state.Ready := hI.reading_state j hj
      refine ⟨?_, ?_, ?_, ?_, ?_, ?_⟩
      · intro a hne
        by_cases ha : a = j % N
        · subst ha
          exact Or.inr (Or.inr ⟨hrd, by simp [rfNext, Function.update_same]⟩)
        · exact absurd (by simp [rfNext, Function.update_noteq ha]) hne
      · intro he; exact Op.noConfusion he
      · intro i he; exact Op.noConfusion he
      · intro he; exact Op.noConfusion he
      · intro j' he
        cases he
        exact ⟨hrd, by simp [rfNext, Function.update_same]⟩
      · intro i v he; exact Op.noConfusion he

/-- C1 witness: the first `write_start` on the fresh queue of capacity 33
performs the Empty → Copying transition on slot 0 and respects the cycle. -/
theorem mpsc_slot_state_cycle_witness :
    slotDiscipline (initQ Nat) (wsNext 33 (initQ Nat)) ∧
    ((Op.write_start : Op Nat) = Op.write_start →
      (initQ Nat).state ((initQ Nat).head % 33) = message_state.Empty ∧
      (wsNext 33 (initQ Nat)).state ((initQ Nat).head % 33) = message_state.Copying) ∧
    (∀ i, (Op.write_start : Op Nat) = Op.write_finish i →
      (initQ Nat).state (i % 33) = message_state.Copying ∧
      (wsNext 33 (initQ Nat)).state (i % 33) = message_state.Ready) ∧
    ((Op.write_start : Op Nat) = Op.read_start →
      (initQ Nat).state ((initQ Nat).tail % 33) = message_state.Ready ∧
      (wsNext 33 (initQ Nat)).state = (initQ Nat).state) ∧
    (∀ j, (Op.write_start : Op Nat) = Op.read_finish j →
      (initQ Nat).state (j % 33) = message_state.Ready ∧
      (wsNext 33 (initQ Nat)).state (j % 33) = message_state.Empty) ∧
    (∀ (i : Nat) (v : Nat), (Op.write_start : Op Nat) = Op.fill i v →
      (wsNext 33 (initQ Nat)).state = (initQ Nat).state) :=
  mpsc_slot_state_cycle 33 (by decide) (initQ Nat) ⟨[], rfl⟩ Op.write_start
    (wsNext 33 (initQ Nat)) rfl

set_option maxRecDepth 100000 in
/-- C3 counterexample: a protocol-respecting execution on a queue of
capacity 33 (17 completed writes; `read_start` of index 0 whose scoped read
operation stays live; 15 completed reads of indices 1..15; 16 more completed
writes) reaches a state at exactly the full threshold
`head - tail = capacity - slack` in which the slot reserved for the next
write (`head % capacity` = slot 0) is `Ready`, held by the in-flight read of
index 0.  `applyOp ... write_start = none` is the model of the source's
`transition(message.state, Empty, Copying)` not completing: `write()` spins
there until the consumer's `read_finish(0)` stores `Empty`, i.e. the write
waits on consumer progress, refuting the claim that a write at the full
threshold completes in a bounded number of steps independent of the
consumer. -/
theorem mpsc_write_waits_at_full_threshold :
    run 33 cexOps (initQ Nat) = some cexQ ∧
    cexQ.head = cexQ.tail + (33 - slack) ∧
    cexQ.reading = [0] ∧
    cexQ.state (cexQ.head % 33) = message_state.Ready ∧
    applyOp 33 Op.write_start cexQ = none := by
  refine ⟨rfl, by decide, by decide, by decide, rfl⟩

/-- C3 amended: `write()`'s head fetch-add always completes in one step, and
`write_start` completes without any waiting — the `transition` to `Copying`
succeeds at once — in every reachable state in which `head - tail` is below
the capacity and no in-flight read holds the index `head - capacity` aliasing
the reserved slot; in particular a write never waits when the advisory bound
is respected and the consumer holds no scoped read operation that old.
(As the source documents, `write()` is wait-free only "when the queue is not
full()": at or beyond the full threshold a write can wait for the consumer,
see the counterexample.) -/
theorem mpsc_write_start_nonblocking {T : Type} [Inhabited T] (N : Nat) (hN : 32 < N)
    (q : QState T) (hr : Reachable N q) (hcap : q.head < q.tail + N)
    (halias : ∀ j ∈ q.reading, j + N ≠ q.head) :
    q.state (q.head % N) = message_state.Empty ∧
    applyOp N Op.write_start q = some (wsNext N q) := by
  have hI := reachable_inv (N := N) (by omega) hr
  have hE : q.state (q.head % N) = message_state.Empty := by
    apply hI.free_state
    · intro i h1 h2 hmod
      have hd : N ∣ q.head - i := (Nat.modEq_iff_dvd' (le_of_lt h2)).mp hmod
      have : N ≤ q.head - i := Nat.le_of_dvd (by omega) hd
      omega
    · intro j hj hmod
      have hmj := hI.reading_mem j hj
      have hlt : j < q.head := by have := hI.tail_le_head; omega
      have hd : N ∣ q.head - j := (Nat.modEq_iff_dvd' (le_of_lt hlt)).mp hmod
      have hge : N ≤ q.head - j := Nat.le_of_dvd (by omega) hd
      have heq : q.head = j + N := by omega
      exact halias j hj heq.symm
  exact ⟨hE, by simp [applyOp, if_pos hE]⟩

/-- C3 amended witness: on the fresh queue of capacity 33 the first write
completes immediately. -/
theorem mpsc_write_start_nonblocking_witness :
    (initQ Nat).state ((initQ Nat).head % 33) = message_state.Empty ∧
    applyOp 33 Op.write_start (initQ Nat) = some (wsNext 33 (initQ Nat)) :=
  mpsc_write_start_nonblocking 33 (by decide) (initQ Nat) ⟨[], rfl⟩ (by decide)
    (by intro j hj; simp [initQ] at hj)

/-- C4: the advisory checks are pure functions of the counters:
`size()` is `head - tail` (as `int64_t`), `empty()` is true iff
`head - tail = 0`, `full()` is true iff `head - tail >= capacity - slack`
with `slack = 16`, and the static assert requires the capacity to exceed
twice the slack.  The embedding of the three checks takes the queue and
returns a value without touching it (they are `const noexcept` loads in the
source). -/
theorem mpsc_size_checks (N : Nat) {T : Type} (q : QState T) :
    size q = (q.head : Int) - (q.tail : Int) ∧
    (empty q = true ↔ (q.head : Int) - (q.tail : Int) = 0) ∧
    (full N q = true ↔ (N : Int) - (slack : Int) ≤ (q.head : Int) - (q.tail : Int)) ∧
    slack = 16 ∧ (capacity_static_assert N ↔ 32 < N) := by
  refine ⟨rfl, ?_, ?_, rfl, ?_⟩
  · simp [empty, size]
  · simp [full, size]
  · simp only [capacity_static_assert, slack]
    omega

/-- C5: the counters are monotone and never wrap: no action decreases
`head` or `tail`; `write_start` increments `head` by exactly 1 leaving
`tail` alone; `read_start` increments `tail` by exactly 1 leaving `head`
alone; the finish actions change neither counter; under the documented
caller protocol `tail ≤ head` in every reachable state; and each counter is
bounded by the number of actions executed, so the `int64_t` counters cannot
overflow within any feasible execution (the source's comment: "extremely
large integers, they will never wrap around"). -/
theorem mpsc_counters_monotone {T : Type} [Inhabited T] (N : Nat) (hN : 32 < N) :
    (∀ (q q' : QState T) (op : Op T), applyOp N op q = some q' →
       q.head ≤ q'.head ∧ q.tail ≤ q'.tail) ∧
    (∀ (q q' : QState T), applyOp N Op.write_start q = some q' →
       q'.head = q.head + 1 ∧ q'.tail = q.tail) ∧
    (∀ (q q' : QState T), applyOp N Op.read_start q = some q' →
       q'.tail = q.tail + 1 ∧ q'.head = q.head) ∧
    (∀ (q q' : QState T) (i : Nat), applyOp N (Op.write_finish i) q = some q' →
       q'.head = q.head ∧ q'.tail = q.tail) ∧
    (∀ (q q' : QState T) (j : Nat), applyOp N (Op.read_finish j) q = some q' →
       q'.head = q.head ∧ q'.tail = q.tail) ∧
    (∀ q : QState T, Reachable N q → q.tail ≤ q.head) ∧
    (∀ (ops : List (Op T)) (q : QState T), run N ops (initQ T) = some q →
       q.head ≤ ops.length ∧ q.tail ≤ ops.length) := by
  refine ⟨?_, ?_, ?_, ?_, ?_, ?_, ?_⟩
  · intro q q' op h
    have := apply_counter_bound h
    exact ⟨this.1, this.2.1⟩
  · intro q q' h
    obtain ⟨_, rfl⟩ := applyOp_write_start h
    exact ⟨rfl, rfl⟩
  · intro q q' h
    obtain ⟨_, _, rfl⟩ := applyOp_read_start h
    exact ⟨rfl, rfl⟩
  · intro q q' i h
    obtain ⟨_, rfl⟩ := applyOp_write_finish h
    exact ⟨rfl, rfl⟩
  · intro q q' j h
    obtain ⟨_, rfl⟩ := applyOp_read_finish h
    exact ⟨rfl, rfl⟩
  · intro q hr
    exact (reachable_inv (N := N) (by omega) hr).tail_le_head
  · intro ops q h
    have := run_counter_bound ops (initQ T) q h
    simp only [initQ] at this
    omega

/-- C5 witness: the first `write_start` on the fresh queue of capacity 33
increments `head` from 0 to 1 and leaves `tail` at 0. -/
theorem mpsc_counters_monotone_witness :
    (wsNext 33 (initQ Nat)).head = (initQ Nat).head + 1 ∧
    (wsNext 33 (initQ Nat)).tail = (initQ Nat).tail :=
  (mpsc_counters_monotone (T := Nat) 33 (by decide)).2.1 (initQ Nat)
    (wsNext 33 (initQ Nat)) rfl

theorem move_chain_step (k : Nat) (op : queue_operation) :
    move_chain (k + 1) op = (move_ctor op).2 :: move_chain k op := rfl

theorem move_chain_filterMap (k : Nat) (op : queue_operation) :
    (move_chain k op).filterMap dtorEffect = (dtorEffect op).toList := by
  induction k with
  | zero =>
      cases h : dtorEffect op <;> simp [move_chain, h]
  | succ k ih =>
      rw [move_chain_step]
      have hnone : dtorEffect (move_ctor op).2 = none := rfl
      simp [List.filterMap_cons, hnone, ih]

/-- C8: the matching finish executes exactly once over a scoped operation's
whole lifetime, moves included: the destructor of a default-constructed
operation performs no finish (`parent == nullptr`); move construction nulls
the source's parent while the new object takes over parent and index; and
across any chain of `k` moves of an operation created by `write()`/`read()`,
destroying all `k+1` objects performs exactly one finish — the one for the
original parent and index — while a default-constructed operation's chain
performs none. -/
theorem mpsc_operation_finish_once (w : Bool) (p i k : Nat) :
    dtorEffect (default_op w) = none ∧
    ((move_ctor (mk_op w p i)).2).parent = none ∧
    ((move_ctor (mk_op w p i)).1).parent = some p ∧
    ((move_ctor (mk_op w p i)).1).index = i ∧
    (move_chain k (mk_op w p i)).filterMap dtorEffect = [(p, w, i)] ∧
    (move_chain k (default_op w)).filterMap dtorEffect = [] := by
  refine ⟨rfl, rfl, rfl, rfl, ?_, ?_⟩
  · rw [move_chain_filterMap]; rfl
  · rw [move_chain_filterMap]; rfl

/-- C9: `write_finish` and `read_finish` modify only the state field of the
one slot addressed by their index: both leave every message value, both
counters and every other slot state untouched; `read_finish` stores `Empty`
without destroying the stored value (the source comment: the message is
destructed only when wrap-around overwrites it); and the only action that
ever changes a stored value is a `fill` of an in-flight write, which
overwrites exactly the slot of its index. -/
theorem mpsc_finish_frame (N : Nat) {T : Type} (q q' : QState T) (op : Op T)
    (h : applyOp N op q = some q') :
    (∀ i, op = Op.write_finish i →
       q'.value = q.value ∧ q'.head = q.head ∧ q'.tail = q.tail ∧
       q'.state (i % N) = message_state.Ready ∧
       ∀ a, a ≠ i % N → q'.state a = q.state a) ∧
    (∀ j, op = Op.read_finish j →
       q'.value = q.value ∧ q'.head = q.head ∧ q'.tail = q.tail ∧
       q'.state (j % N) = message_state.Empty ∧
       ∀ a, a ≠ j % N → q'.state a = q.state a) ∧
    (q'.value = q.value ∨
       ∃ i v, op = Op.fill i v ∧ i ∈ q.writing ∧
         q'.value = Function.update q.value (i % N) v) := by
  cases op with
  | write_start =>
      obtain ⟨_, rfl⟩ := applyOp_write_start h
      exact ⟨fun i he => Op.noConfusion he, fun j he => Op.noConfusion he, Or.inl rfl⟩
  | fill i v =>
      obtain ⟨hi, rfl⟩ := applyOp_fill h
      exact ⟨fun i' he => Op.noConfusion he, fun j he => Op.noConfusion he,
        Or.inr ⟨i, v, rfl, hi, rfl⟩⟩
  | write_finish i =>
      obtain ⟨hi, rfl⟩ := applyOp_write_finish h
      refine ⟨?_, fun j he => Op.noConfusion he, Or.inl rfl⟩
      intro i' he
      cases he
      exact ⟨rfl, rfl, rfl, by simp [wfNext, Function.update_same],
        fun a ha => by simp [wfNext, Function.update_noteq ha]⟩
  | read_start =>
      obtain ⟨_, _, rfl⟩ := applyOp_read_start h
      exact ⟨fun i he => Op.noConfusion he, fun j he => Op.noConfusion he, Or.inl rfl⟩
  | read_finish j =>
      obtain ⟨hj, rfl⟩ := applyOp_read_finish h
      refine ⟨fun i he => Op.noConfusion he, ?_, Or.inl rfl⟩
      intro j' he
      cases he
      exact ⟨rfl, rfl, rfl, by simp [rfNext, Function.update_same],
        fun a ha => by simp [rfNext, Function.update_noteq ha]⟩

/-- C9 witness: finishing the first write on the capacity-33 queue leaves
the values and counters untouched and stores `Ready` in slot 0 only. -/
theorem mpsc_finish_frame_witness :
    (wfNext 33 0 (wsNext 33 (initQ Nat))).value = (wsNext 33 (initQ Nat)).value ∧
    (wfNext 33 0 (wsNext 33 (initQ Nat))).head = (wsNext 33 (initQ Nat)).head ∧
    (wfNext 33 0 (wsNext 33 (initQ Nat))).state (0 % 33) = message_state.Ready :=
  have h := (mpsc_finish_frame 33 (wsNext 33 (initQ Nat))
    (wfNext 33 0 (wsNext 33 (initQ Nat))) (Op.write_finish 0) rfl).1 0 rfl
  ⟨h.1, h.2.1, h.2.2.2.1⟩

theorem run_append {N : Nat} {T : Type} :
    ∀ (l1 l2 : List (Op T)) (q q1 : QState T),
      run N l1 q = some q1 → run N (l1 ++ l2) q = run N l2 q1 := by
  intro l1
  induction l1 with
  | nil =>
      intro l2 q q1 h
      simp only [run] at h
      cases h
      simp
  | cons op l1 ih =>
      intro l2 q q1 h
      simp only [run] at h
      cases heq : applyOp N op q with
      | none => rw [heq] at h; cases h
      | some q2 =>
          rw [heq] at h
          simp only [List.cons_append, run, heq]
          exact ih l2 q2 q1 h

theorem run_writeOps {N : Nat} {T : Type} [Inhabited T] :
    ∀ (vs : List T) (k : Nat) (q : QState T),
      q.head = k → q.writing = [] →
      (∀ a, k ≤ a → q.state a = message_state.Empty) →
      k + vs.length ≤ N →
      ∃ q', run N (writeOps k vs) q = some q' ∧
        q'.head = k + vs.length ∧
        q'.tail = q.tail ∧
        q'.writing = [] ∧
        q'.reading = q.reading ∧
        q'.readLog = q.readLog ∧
        (∀ a, k + vs.length ≤ a → q'.state a = message_state.Empty) ∧
        (∀ a, a < k → q'.state a = q.state a) ∧
        (∀ a, a < k → q'.value a = q.value a) ∧
        (∀ i, i < k → q'.written i = q.written i) ∧
        (∀ t, t < vs.length → q'.state (k + t) = message_state.Ready) ∧
        (∀ t, t < vs.length → q'.value (k + t) = vs.getD t default) ∧
        (∀ t, t < vs.length → q'.written (k + t) = some (vs.getD t default)) := by
  intro vs
  induction vs with
  | nil =>
      intro k q hhead hw hstate hcap
      refine ⟨q, rfl, by simpa using hhead, rfl, hw, rfl, rfl, ?_, ?_, ?_, ?_, ?_, ?_, ?_⟩
      · intro a ha; exact hstate a (by omega)
      · intro a _; rfl
      · intro a _; rfl
      · intro i _; rfl
      · intro t ht; simp at ht
      · intro t ht; simp at ht
      · intro t ht; simp at ht
  | cons v vs ih =>
      intro k q hhead hw hstate hcap
      have hkN : k < N := by simp at hcap; omega
      have hg1 : q.state (q.head % N) = message_state.Empty := by
        rw [hhead, Nat.mod_eq_of_lt hkN]
        exact hstate k le_rfl
      have h1 : applyOp N Op.write_start q = some (wsNext N q) := by
        simp [applyOp, if_pos hg1]
      have hmem : k ∈ (wsNext N q).writing := by
        simp [wsNext, hhead]
      have h2 : applyOp N (Op.fill k v) (wsNext N q) =
          some (fillNext N k v (wsNext N q)) := by
        simp [applyOp, if_pos hmem]
      have hmem2 : k ∈ (fillNext N k v (wsNext N q)).writing := by
        simp [fillNext, wsNext, hhead]
      have h3 : applyOp N (Op.write_finish k) (fillNext N k v (wsNext N q)) =
          some (wfNext N k (fillNext N k v (wsNext N q))) := by
        simp [applyOp, if_pos hmem2]
      set q3 := wfNext N k (fillNext N k v (wsNext N q)) with hq3
      have hq3head : q3.head = k + 1 := by
        simp [hq3, wfNext, fillNext, wsNext, hhead]
      have hq3writing : q3.writing = [] := by
        simp [hq3, wfNext, fillNext, wsNext, hhead, hw, List.erase_cons_head]
      have hq3state : ∀ a, k + 1 ≤ a → q3.state a = message_state.Empty := by
        intro a ha
        have hne : a ≠ k % N := by rw [Nat.mod_eq_of_lt hkN]; omega
        simp only [hq3, wfNext, fillNext, wsNext]
        rw [Function.update_noteq hne]
        have hne2 : a ≠ q.head % N := by rw [hhead, Nat.mod_eq_of_lt hkN]; omega
        rw [Function.update_noteq hne2]
        exact hstate a (by omega)
      have hcap3 : (k + 1) + vs.length ≤ N := by simp at hcap; omega
      obtain ⟨q', hrun, hh, ht, hw', hr', hlog, hemp, hsO, hvO, hwO, hsR, hvR, hwR⟩ :=
        ih (k + 1) q3 hq3head hq3writing hq3state hcap3
      have hkk : k % N = k := Nat.mod_eq_of_lt hkN
      refine ⟨q', ?_, ?_, ?_, hw', ?_, ?_, ?_, ?_, ?_, ?_, ?_, ?_, ?_⟩
      · simp only [writeOps, run, h1, h2, h3]
        exact hrun
      · simp only [List.length_cons]; omega
      · rw [ht]; simp [hq3, wfNext, fillNext, wsNext]
      · rw [hr']; simp [hq3, wfNext, fillNext, wsNext]
      · rw [hlog]; simp [hq3, wfNext, fillNext, wsNext]
      · intro a ha
        exact hemp a (by simp at ha; omega)
      · intro a ha
        rw [hsO a (by omega)]
        have hne : a ≠ k % N := by omega
        have hne2 : a ≠ q.head % N := by rw [hhead, hkk]; omega
        simp only [hq3, wfNext, fillNext, wsNext]
        rw [Function.update_noteq hne, Function.update_noteq hne2]
      · intro a ha
        rw [hvO a (by omega)]
        have hne : a ≠ k % N := by omega
        simp only [hq3, wfNext, fillNext, wsNext]
        rw [Function.update_noteq hne]
      · intro i hi
        rw [hwO i (by omega)]
        have hne : i ≠ k := by omega
        simp only [hq3, wfNext, fillNext, wsNext]
        rw [Function.update_noteq hne]
      · intro t ht'
        cases t with
        | zero =>
            rw [Nat.add_zero, hsO k (by omega)]
            simp only [hq3, wfNext, fillNext, wsNext, hkk]
            rw [Function.update_same]
        | succ t' =>
            have := hsR t' (by simp at ht'; omega)
            rw [show k + (t' + 1) = (k + 1) + t' by omega]
            exact this
      · intro t ht'
        cases t with
        | zero =>
            rw [Nat.add_zero, hvO k (by omega)]
            simp only [hq3, wfNext, fillNext, wsNext, hkk]
            rw [Function.update_same]
            rfl
        | succ t' =>
            have := hvR t' (by simp at ht'; omega)
            rw [show k + (t' + 1) = (k + 1) + t' by omega]
            exact this
      · intro t ht'
        cases t with
        | zero =>
            rw [Nat.add_zero, hwO k (by omega)]
            simp only [hq3, wfNext, fillNext, wsNext, hkk]
            rw [Function.update_same, Function.update_same]
            rfl
        | succ t' =>
            have := hwR t' (by simp at ht'; omega)
            rw [show k + (t' + 1) = (k + 1) + t' by omega]
            exact this

theorem run_readOps {N : Nat} {T : Type} [Inhabited T] :
    ∀ (r j0 : Nat) (q : QState T),
      q.tail = j0 →
      j0 + r ≤ q.head → q.head ≤ N →
      (∀ a, j0 ≤ a → a < j0 + r → q.state a = message_state.Ready) →
      ∃ q', run N (readOps T j0 r) q = some q' ∧
        q'.tail = j0 + r ∧
        q'.head = q.head ∧
        q'.writing = q.writing ∧
        q'.reading = q.reading ∧
        (∀ a, q'.value a = q.value a) ∧
        (∀ i, q'.written i = q.written i) ∧
        q'.readLog = q.readLog ++ (List.range r).map (fun t => (j0 + t, q.value (j0 + t))) := by
  intro r
  induction r with
  | zero =>
      intro j0 q htail hle hN hready
      refine ⟨q, rfl, by omega, rfl, rfl, rfl, fun a => rfl, fun i => rfl, by simp⟩
  | succ r ih =>
      intro j0 q htail hle hN hready
      have hj0N : j0 < N := by omega
      have hj0j0 : j0 % N = j0 := Nat.mod_eq_of_lt hj0N
      have hg1 : q.tail < q.head ∧ q.state (q.tail % N) = message_state.Ready := by
        constructor
        · omega
        · rw [htail, hj0j0]
          exact hready j0 le_rfl (by omega)
      have h1 : applyOp N Op.read_start q = some (rsNext N q) := by
        simp [applyOp, if_pos hg1]
      have hmem : j0 ∈ (rsNext N q).reading := by
        simp [rsNext, htail]
      have h2 : applyOp N (Op.read_finish j0) (rsNext N q) =
          some (rfNext N j0 (rsNext N q)) := by
        simp [applyOp, if_pos hmem]
      set q2 := rfNext N j0 (rsNext N q) with hq2
      have hq2tail : q2.tail = j0 + 1 := by simp [hq2, rfNext, rsNext, htail]
      have hq2head : q2.head = q.head := by simp [hq2, rfNext, rsNext]
      have hq2state : ∀ a, j0 + 1 ≤ a → a < (j0 + 1) + r →
          q2.state a = message_state.Ready := by
        intro a ha1 ha2
        have hne : a ≠ j0 % N := by rw [hj0j0]; omega
        simp only [hq2, rfNext, rsNext]
        rw [Function.update_noteq hne]
        exact hready a (by omega) (by omega)
      obtain ⟨q', hrun, ht, hh, hw', hr', hv, hwr, hlog⟩ :=
        ih (j0 + 1) q2 hq2tail (by rw [hq2head]; omega) (by rw [hq2head]; exact hN)
          hq2state
      refine ⟨q', ?_, by omega, by rw [hh, hq2head], ?_, ?_, ?_, ?_, ?_⟩
      · simp only [readOps, run, h1, h2]
        exact hrun
      · rw [hw']; simp [hq2, rfNext, rsNext]
      · rw [hr']
        simp [hq2, rfNext, rsNext, htail, List.erase_cons_head]
      · intro a
        rw [hv a]
        simp [hq2, rfNext, rsNext]
      · intro i
        rw [hwr i]
        simp [hq2, rfNext, rsNext]
      · rw [hlog]
        have hq2log : q2.readLog = q.readLog ++ [(j0, q.value j0)] := by
          simp [hq2, rfNext, rsNext, htail, hj0j0]
        have hq2val : ∀ a, q2.value a = q.value a := by
          intro a
          simp [hq2, rfNext, rsNext]
        rw [hq2log]
        rw [List.append_assoc]
        congr 1
        have hfun : (fun t => ((j0 + 1) + t, q2.value ((j0 + 1) + t))) =
            (fun t => (j0 + (t + 1), q.value (j0 + (t + 1)))) := by
          funext t
          rw [hq2val, show (j0 + 1) + t = j0 + (t + 1) by omega]
        rw [hfun]
        rw [List.range_succ_eq_map, List.map_cons, List.map_map]
        rfl

theorem range_map_getD {T : Type} [Inhabited T] (vs : List T) :
    (List.range vs.length).map (fun t => vs.getD t default) = vs := by
  induction vs with
  | nil => simp
  | cons v vs ih =>
      simp only [List.length_cons, List.range_succ_eq_map, List.map_cons,
        List.map_map]
      rw [List.getD_cons_zero]
      exact congrArg (List.cons v)
        ((List.map_congr_left fun t _ => List.getD_cons_succ).trans ih)

theorem seq_instance {N : Nat} {T : Type} [Inhabited T]
    (vs : List T) (hvs : vs.length + slack ≤ N) :
    ∃ qf, run N (seqOps vs) (initQ T) = some qf ∧
      qf.readLog.map Prod.fst = List.range vs.length ∧
      qf.readLog.map Prod.snd = vs := by
  have hcap : 0 + vs.length ≤ N := by simp only [slack] at hvs; omega
  obtain ⟨q1, hrun1, hh, ht, hw', hr', hlog, hemp, _, _, _, hsR, hvR, _⟩ :=
    run_writeOps vs 0 (initQ T) rfl rfl (fun a _ => rfl) hcap
  have hhead1 : q1.head = vs.length := by simpa using hh
  obtain ⟨q2, hrun2, ht2, _, _, _, _, _, hlog2⟩ :=
    run_readOps (N := N) vs.length 0 q1 (by rw [ht]; rfl)
      (by omega) (by omega)
      (fun a h1 h2 => by
        have := hsR a (by omega)
        simpa using this)
  refine ⟨q2, ?_, ?_, ?_⟩
  · rw [seqOps, run_append (writeOps 0 vs) (readOps T 0 vs.length) (initQ T) q1 hrun1]
    exact hrun2
  · rw [hlog2, hlog]
    simp only [initQ, List.nil_append, List.map_map]
    exact (List.map_congr_left fun t _ => Nat.zero_add t).trans (List.map_id _)
  · rw [hlog2, hlog]
    have : ∀ t ∈ List.range vs.length, q1.value (0 + t) = vs.getD t default := by
      intro t ht'
      exact hvR t (List.mem_range.mp ht')
    simp only [initQ, List.nil_append, List.map_map]
    calc (List.range vs.length).map
          (Prod.snd ∘ fun t => (0 + t, q1.value (0 + t)))
        = (List.range vs.length).map (fun t => vs.getD t default) := by
          apply List.map_congr_left
          intro t ht'
          simp only [Function.comp]
          exact this t ht'
      _ = vs := range_map_getD vs

/-- C2: messages pass through the queue exactly once and in order.  In every
reachable state the consumer's observation log pairs exactly the indices
`0, 1, ..., tail-1`, in increasing order and each exactly once, and pairs
every index with precisely the value committed by the unique completed write
that reserved that index (so the reads of one producer's messages — which
occupy increasing indices, `head` being fetch-add — preserve that producer's
write order).  In particular, starting from the empty queue and staying
within the advisory capacity, `k` completed writes of the values `vs`
followed by `k` completed reads yield, for every `i < k`, an `i`-th read
equal to the value stored by the `i`-th write. -/
theorem mpsc_fifo_exactly_once {T : Type} [Inhabited T] (N : Nat) (hN : 32 < N)
    (q : QState T) (hr : Reachable N q) (vs : List T)
    (hvs : vs.length + slack ≤ N) :
    (q.readLog.map Prod.fst = List.range q.tail) ∧
    (∀ p ∈ q.readLog, q.written p.1 = some p.2) ∧
    (∃ qf, run N (seqOps vs) (initQ T) = some qf ∧
       qf.readLog.map Prod.fst = List.range vs.length ∧
       qf.readLog.map Prod.snd = vs) := by
  have hI := reachable_inv (N := N) (by omega) hr
  exact ⟨hI.readLog_indices, hI.readLog_written, seq_instance vs hvs⟩

/-- C2 witness: on the capacity-33 queue, writing 5 then 7 and reading twice
returns 5 then 7. -/
theorem mpsc_fifo_exactly_once_witness :
    ((initQ Nat).readLog.map Prod.fst = List.range (initQ Nat).tail) ∧
    (∀ p ∈ (initQ Nat).readLog, (initQ Nat).written p.1 = some p.2) ∧
    (∃ qf, run 33 (seqOps [5, 7]) (initQ Nat) = some qf ∧
       qf.readLog.map Prod.fst = List.range ([5, 7] : List Nat).length ∧
       qf.readLog.map Prod.snd = [5, 7]) :=
  mpsc_fifo_exactly_once 33 (by decide) (initQ Nat) ⟨[], rfl⟩ [5, 7] (by decide)

/-- C10: dereferencing a scoped operation requires a non-null parent:
`operator*` on a default-constructed or moved-from operation fails the
`required_assert(parent != nullptr)` (modelled as `none`); with a non-null
parent it returns the value of slot `index % capacity` of the parent queue
(`operator[]`), so indices differing by the capacity alias the same
storage. -/
theorem mpsc_deref_requires_parent (N : Nat) {T : Type} (q : QState T)
    (w : Bool) (p i : Nat) :
    star N q (default_op w) = none ∧
    star N q ((move_ctor (mk_op w p i)).2) = none ∧
    star N q (mk_op w p i) = some (q.value (i % N)) ∧
    star N q (mk_op w p (i + N)) = star N q (mk_op w p i) := by
  refine ⟨rfl, rfl, rfl, ?_⟩
  simp [star, getIdx, mk_op, Nat.add_mod_right]

end MPSC

namespace Dispatch

/-- C6: `awaitable_timer::await_suspend(handle)` registers with the
thread-local loop a delayed function at the awaitable's deadline whose
callback resumes the suspended coroutine handle, and stores the returned
token in the awaitable (`_token = loop::local().delay_function(_deadline,
[handle]{ handle.resume(); })`).  Consequently — per the spec's contract for
the loop, which is modelled here because its implementation is not among the
sources — the registered callback can only fire at a time no earlier than
the deadline and only on the loop's owning thread, so the coroutine is never
resumed before the deadline and never on another thread. -/
theorem awaitable_timer_registers (a : awaitable_timer) (handle : Nat) (lp : Loop)
    (hfresh : FreshTokens lp) :
    (await_suspend a handle lp).1.token = some lp.nextToken ∧
    (await_suspend a handle lp).1.deadline = a.deadline ∧
    (lp.nextToken, ({ deadline := a.deadline, callback := Callback.resume handle } : Timer))
      ∈ (await_suspend a handle lp).2.timers ∧
    (await_suspend a handle lp).2.owner = lp.owner ∧
    (∀ time thread, canFire (await_suspend a handle lp).2 lp.nextToken time thread →
       a.deadline ≤ time ∧ thread = lp.owner) := by
  refine ⟨rfl, rfl, ?_, rfl, ?_⟩
  · simp [await_suspend, delay_function]
  · intro time thread hcf
    obtain ⟨hth, t, htmem, htok, hdl⟩ := hcf
    simp only [await_suspend, delay_function] at htmem hth
    rcases List.mem_append.mp htmem with hold | hnew
    · exact absurd htok (ne_of_lt (hfresh t hold))
    · rw [List.mem_singleton] at hnew
      subst hnew
      exact ⟨hdl, hth⟩

/-- C6 witness: suspending on a timer with deadline 100 against the empty
loop owned by thread 7 registers token 0, and that token can only fire at
time at least 100 on thread 7. -/
theorem awaitable_timer_registers_witness :
    (await_suspend ⟨100, none⟩ 3 ⟨7, [], 0⟩).1.token = some (Loop.mk 7 [] 0).nextToken ∧
    (await_suspend ⟨100, none⟩ 3 ⟨7, [], 0⟩).1.deadline = (100 : Int) ∧
    ((Loop.mk 7 [] 0).nextToken,
      ({ deadline := 100, callback := Callback.resume 3 } : Timer))
      ∈ (await_suspend ⟨100, none⟩ 3 ⟨7, [], 0⟩).2.timers ∧
    (await_suspend ⟨100, none⟩ 3 ⟨7, [], 0⟩).2.owner = (Loop.mk 7 [] 0).owner ∧
    (∀ time thread,
       canFire (await_suspend ⟨100, none⟩ 3 ⟨7, [], 0⟩).2 (Loop.mk 7 [] 0).nextToken
         time thread →
       (100 : Int) ≤ time ∧ thread = (Loop.mk 7 [] 0).owner) :=
  awaitable_timer_registers ⟨100, none⟩ 3 ⟨7, [], 0⟩ (by intro t ht; simp at ht)

end Dispatch

namespace SubSys

theorem invS_init (n : Nat) : InvS n (initConf n) :=
  Or.inl ⟨rfl, rfl, fun _ => rfl⟩

theorem invS_step {n : Nat} {c c' : Conf n} (h : sstep n true c c') (hI : InvS n c) :
    InvS n c' := by
  cases h with
  | cas_win t hc hs =>
      rcases hI with ⟨h1, h2, h3⟩ | ⟨h1, _⟩ | ⟨h1, _⟩
      · right; left
        refine ⟨rfl, h2, ⟨t, ?_, ?_⟩, ?_⟩
        · simp only [Function.update_same]
        · intro t' ht'
          by_cases he : t' = t
          · exact he
          · simp only [Function.update_noteq he, h3 t'] at ht'
            exact CallState.noConfusion ht'
        · intro t' ok
          by_cases he : t' = t
          · subst he; simp only [Function.update_same]; simp
          · simp only [Function.update_noteq he, h3 t']; simp
      · rw [h1] at hs; exact SubsystemState.noConfusion hs
      · rw [h1] at hs; exact SubsystemState.noConfusion hs
  | cas_lose t hc hs =>
      rcases hI with ⟨h1, _⟩ | ⟨h1, h2, ⟨w, hw, huniq⟩, h4⟩ | ⟨h1, h2, h3, h4⟩
      · exact absurd h1 hs
      · right; left
        refine ⟨h1, h2, ⟨w, ?_, ?_⟩, ?_⟩
        · have hne : w ≠ t := fun he => by
            rw [he, hc] at hw; exact CallState.noConfusion hw
          simp only [Function.update_noteq hne]; exact hw
        · intro t' ht'
          by_cases he : t' = t
          · subst he; simp only [Function.update_same] at ht'
            exact CallState.noConfusion ht'
          · simp only [Function.update_noteq he] at ht'
            exact huniq t' ht'
        · intro t' ok
          by_cases he : t' = t
          · subst he; simp only [Function.update_same]; simp
          · simp only [Function.update_noteq he]; exact h4 t' ok
      · right; right
        refine ⟨h1, h2, ?_, ?_⟩
        · intro t'
          by_cases he : t' = t
          · subst he; simp only [Function.update_same]; simp
          · simp only [Function.update_noteq he]; exact h3 t'
        · intro t'
          by_cases he : t' = t
          · subst he; simp only [Function.update_same]; simp
          · simp only [Function.update_noteq he]; exact h4 t'
  | observe_running t hc hs =>
      rcases hI with ⟨h1, _⟩ | ⟨h1, _⟩ | ⟨h1, h2, h3, h4⟩
      · rw [h1] at hs; exact SubsystemState.noConfusion hs
      · rw [h1] at hs; exact SubsystemState.noConfusion hs
      · right; right
        refine ⟨h1, h2, ?_, ?_⟩
        · intro t'
          by_cases he : t' = t
          · subst he; simp only [Function.update_same]; simp
          · simp only [Function.update_noteq he]; exact h3 t'
        · intro t'
          by_cases he : t' = t
          · subst he; simp only [Function.update_same]; simp
          · simp only [Function.update_noteq he]; exact h4 t'
  | retry t hc hs =>
      rcases hI with ⟨h1, h2, h3⟩ | ⟨h1, _⟩ | ⟨h1, _⟩
      · rw [h3 t] at hc; exact CallState.noConfusion hc
      · rw [h1] at hs; exact SubsystemState.noConfusion hs
      · rw [h1] at hs; exact SubsystemState.noConfusion hs
  | run_init t hc =>
      rcases hI with ⟨h1, h2, h3⟩ | ⟨h1, h2, ⟨w, hw, huniq⟩, h4⟩ | ⟨h1, h2, h3, h4⟩
      · rw [h3 t] at hc; exact CallState.noConfusion hc
      · have htw : t = w := huniq t hc
        right; right
        refine ⟨rfl, ?_, ?_, ?_⟩
        · show c.initCount + 1 = 1
          omega
        · intro t'
          by_cases he : t' = t
          · subst he; simp only [Function.update_same]; simp
          · simp only [Function.update_noteq he]
            intro hwon
            exact he (by rw [huniq t' hwon, ← htw])
        · intro t'
          by_cases he : t' = t
          · subst he; simp only [Function.update_same]; simp
          · simp only [Function.update_noteq he]; exact h4 t' false
      · exact absurd hc (h3 t)

theorem reachableS_invS {n : Nat} {c : Conf n} (hr : ReachableS n true c) : InvS n c := by
  induction hr with
  | refl => exact invS_init n
  | tail _ hstep ih => exact invS_step hstep ih

/-- C7: concurrent calls to `start` on one subsystem (as
`os_settings::start_subsystem` does via `hi::start_subsystem`), modelled
from the spec because the `hi::start_subsystem` implementation is not among
the sources.  With a succeeding `init_fn`, in every reachable configuration
of `n` racing threads `init_fn` has executed at most once, every completed
call observed success, `init_fn` has executed exactly once whenever the
subsystem is Running, and any completed call implies the subsystem is
Running with exactly one `init_fn` execution.  With a failing `init_fn`, the
winner's step returns false and reverts the state to NotStarted, after which
any idle thread can win the CAS again — a later `start` can retry. -/
theorem start_subsystem_exactly_once (n : Nat) :
    (∀ c : Conf n, ReachableS n true c →
       c.initCount ≤ 1 ∧
       (∀ t ok, c.calls t = CallState.done ok → ok = true) ∧
       (c.state = SubsystemState.Running → c.initCount = 1) ∧
       ((∃ t ok, c.calls t = CallState.done ok) →
         c.state = SubsystemState.Running ∧ c.initCount = 1)) ∧
    (∀ (c : Conf n) (t : Fin n), c.calls t = CallState.won →
       sstep n false c (failConf n c t) ∧
       (failConf n c t).state = SubsystemState.NotStarted ∧
       (failConf n c t).calls t = CallState.done false ∧
       (failConf n c t).initCount = c.initCount + 1 ∧
       (∀ t' : Fin n, (failConf n c t).calls t' = CallState.idle →
          sstep n false (failConf n c t)
            { state := SubsystemState.Starting
              initCount := (failConf n c t).initCount
              calls := Function.update (failConf n c t).calls t' CallState.won })) := by
  constructor
  · intro c hr
    have hI := reachableS_invS hr
    rcases hI with ⟨h1, h2, h3⟩ | ⟨h1, h2, _, h4⟩ | ⟨h1, h2, h3, h4⟩
    · refine ⟨by omega, ?_, ?_, ?_⟩
      · intro t ok h; rw [h3 t] at h; exact CallState.noConfusion h
      · intro h; rw [h1] at h; exact SubsystemState.noConfusion h
      · rintro ⟨t, ok, h⟩; rw [h3 t] at h; exact CallState.noConfusion h
    · refine ⟨by omega, ?_, ?_, ?_⟩
      · intro t ok h; exact absurd h (h4 t ok)
      · intro h; rw [h1] at h; exact SubsystemState.noConfusion h
      · rintro ⟨t, ok, h⟩; exact absurd h (h4 t ok)
    · refine ⟨by omega, ?_, fun _ => h2, fun _ => ⟨h1, h2⟩⟩
      intro t ok h
      cases ok with
      | true => rfl
      | false => exact absurd h (h4 t)
  · intro c t hc
    refine ⟨sstep.run_init c t hc, rfl, ?_, rfl, ?_⟩
    · simp [failConf, Function.update_same]
    · intro t' ht'
      exact sstep.cas_win _ t' ht' rfl

/-- C7 witness: the initial two-thread configuration satisfies the
exactly-once conclusions, and the one-thread configuration whose thread has
won the CAS reverts to NotStarted with a false result when `init_fn`
fails. -/
theorem start_subsystem_exactly_once_witness :
    ((initConf 2).initCount ≤ 1 ∧
     (∀ t ok, (initConf 2).calls t = CallState.done ok → ok = true) ∧
     ((initConf 2).state = SubsystemState.Running → (initConf 2).initCount = 1) ∧
     ((∃ t ok, (initConf 2).calls t = CallState.done ok) →
        (initConf 2).state = SubsystemState.Running ∧ (initConf 2).initCount = 1)) ∧
    ((failConf 1 wonConf 0).state = SubsystemState.NotStarted ∧
     (failConf 1 wonConf 0).calls 0 = CallState.done false ∧
     (failConf 1 wonConf 0).initCount = wonConf.initCount + 1) := by
  constructor
  · exact (start_subsystem_exactly_once 2).1 (initConf 2) Relation.ReflTransGen.refl
  · have h := (start_subsystem_exactly_once 1).2 wonConf 0 rfl
    exact ⟨h.2.1, h.2.2.1, h.2.2.2.1⟩

end SubSys

end HikoVerify
